import Mathlib

/-!
Verification of the second-opinion transcription pipeline.

Shallow embedding of the core algorithms of the repository:
clustering of low-confidence words (src/lib/clustering.ts),
reconciliation and transcript merging (src/lib/reconciliation.ts), and
word extraction from the ASR response (src/lib/whisper.ts).
Times and probabilities are embedded as rational numbers.
-/

/-- Word-level ASR output: `WhisperWord` from src/lib/whisper.ts. -/
structure WhisperWord where
  word : String
  start : ℚ
  «end» : ℚ
  probability : ℚ
deriving DecidableEq, Repr, Inhabited

/-- Options of `ClusteringService` (src/lib/clustering.ts). -/
structure ClusteringOptions where
  confidenceThreshold : ℚ
  proximityThreshold : ℚ
  correctionWindow : ℚ
deriving DecidableEq, Repr

/-- Defaults from the constructor of `ClusteringService`:
threshold 0.60, proximity 5 s, window 20 s. -/
def defaultClusteringOptions : ClusteringOptions :=
  { confidenceThreshold := 3/5, proximityThreshold := 5, correctionWindow := 20 }

/-- A confidence cluster: `ConfidenceCluster` from src/lib/clustering.ts. -/
structure ConfidenceCluster where
  id : String
  words : List WhisperWord
  centerTime : ℚ
  startTime : ℚ
  endTime : ℚ
  averageConfidence : ℚ
  clipStart : ℚ
  clipEnd : ℚ
deriving DecidableEq, Repr, Inhabited

/-- Step 2 of `clusterLowConfidenceWords`: the proximity-grouping loop.
`cur` is the current cluster being built, `last` the word most recently
pushed onto it (the source reads `currentCluster[currentCluster.length - 1]`),
`rest` the remaining low-confidence words. -/
def groupLoop (p : ℚ) (cur : List WhisperWord) (last : WhisperWord) :
    List WhisperWord → List (List WhisperWord)
  | [] => [cur]
  | w :: ws =>
    if w.start - last.«end» ≤ p then
      groupLoop p (cur ++ [w]) w ws
    else
      cur :: groupLoop p [w] w ws

/-- Step 3 of `clusterLowConfidenceWords`: annotate one raw cluster with
metadata and the correction window. -/
def mkCluster (opts : ClusteringOptions) (index : Nat)
    (clusterWords : List WhisperWord) : ConfidenceCluster :=
  let startTime := clusterWords.headI.start
  let endTime := clusterWords.getLastI.«end»
  let centerTime := (startTime + endTime) / 2
  let totalConfidence := (clusterWords.map (fun w => w.probability)).sum
  let averageConfidence := totalConfidence / clusterWords.length
  let halfWindow := opts.correctionWindow / 2
  { id := "cluster_" ++ toString index
    words := clusterWords
    centerTime := centerTime
    startTime := startTime
    endTime := endTime
    averageConfidence := averageConfidence
    clipStart := max 0 (centerTime - halfWindow)
    clipEnd := centerTime + halfWindow }

/-- Merge of two clusters whose correction windows overlap
(the record update inside `mergeOverlappingClusters`). -/
def mergeTwoClusters (current next : ConfidenceCluster) : ConfidenceCluster :=
  { id := current.id ++ "_" ++ next.id
    words := current.words ++ next.words
    centerTime := (current.centerTime + next.centerTime) / 2
    startTime := min current.startTime next.startTime
    endTime := max current.endTime next.endTime
    averageConfidence :=
      (current.averageConfidence * current.words.length +
        next.averageConfidence * next.words.length) /
      (current.words.length + next.words.length)
    clipStart := min current.clipStart next.clipStart
    clipEnd := max current.clipEnd next.clipEnd }

/-- The left-to-right pass of `mergeOverlappingClusters`, carrying the
running `current` cluster. -/
def mergeLoop (current : ConfidenceCluster) :
    List ConfidenceCluster → List ConfidenceCluster
  | [] => [current]
  | next :: rest =>
    if next.clipStart ≤ current.clipEnd then
      mergeLoop (mergeTwoClusters current next) rest
    else
      current :: mergeLoop next rest

/-- `ClusteringService.mergeOverlappingClusters`: lists of length at most one
are returned unchanged, otherwise a single merging pass runs. -/
def mergeOverlappingClusters :
    List ConfidenceCluster → List ConfidenceCluster
  | [] => []
  | [c] => [c]
  | c :: cs => mergeLoop c cs

/-- Step 1 of `clusterLowConfidenceWords`: the low-confidence filter. -/
def lowConfidenceWordsOf (opts : ClusteringOptions)
    (words : List WhisperWord) : List WhisperWord :=
  words.filter (fun w => decide (w.probability < opts.confidenceThreshold))

/-- Steps 1 and 2 of `clusterLowConfidenceWords`: the raw clusters before
annotation, empty when there is no low-confidence word. -/
def rawClustersOf (opts : ClusteringOptions)
    (words : List WhisperWord) : List (List WhisperWord) :=
  match lowConfidenceWordsOf opts words with
  | [] => []
  | w :: ws => groupLoop opts.proximityThreshold [w] w ws

/-- Step 3 of `clusterLowConfidenceWords`: the annotated clusters, indexed
as in the source `rawClusters.map((clusterWords, index) => ...)`. -/
def annotatedClustersOf (opts : ClusteringOptions)
    (words : List WhisperWord) : List ConfidenceCluster :=
  (rawClustersOf opts words).enum.map (fun iw => mkCluster opts iw.1 iw.2)

/-- `ClusteringService.clusterLowConfidenceWords` from src/lib/clustering.ts. -/
def clusterLowConfidenceWords (opts : ClusteringOptions)
    (words : List WhisperWord) : List ConfidenceCluster :=
  match words with
  | [] => []
  | _ :: _ => mergeOverlappingClusters (annotatedClustersOf opts words)

example :
    clusterLowConfidenceWords defaultClusteringOptions
      [⟨"Hello", 0, 1/2, 19/20⟩, ⟨"world", 1/2, 1, 9/20⟩,
       ⟨"test", 1, 3/2, 9/10⟩] =
    [{ id := "cluster_0"
       words := [⟨"world", 1/2, 1, 9/20⟩]
       centerTime := 3/4
       startTime := 1/2
       endTime := 1
       averageConfidence := 9/20
       clipStart := 0
       clipEnd := 43/4 }] := by with_unfolding_all decide

/-- JS regex class `\w`: ASCII letters, digits and underscore. -/
def isWordChar (c : Char) : Bool :=
  (('a' ≤ c && c ≤ 'z') || ('A' ≤ c && c ≤ 'Z') ||
   ('0' ≤ c && c ≤ '9') || c = '_')

/-- JS regex class `\s` restricted to the ASCII whitespace characters. -/
def isSpaceChar (c : Char) : Bool :=
  (c = ' ' || c = '\t' || c = '\n' || c = '\x0d' || c = '\x0b' || c = '\x0c')

/-- Removal of the trailing whitespace run (the right half of JS trim). -/
def trimRight : List Char → List Char
  | [] => []
  | c :: cs =>
    match trimRight cs with
    | [] => if isSpaceChar c then [] else [c]
    | d :: ds => c :: d :: ds

/-- JS `String.prototype.trim`: drop whitespace from both ends. -/
def trimChars (l : List Char) : List Char :=
  trimRight (l.dropWhile isSpaceChar)

/-- JS `replace` of every maximal whitespace run by a single space
(the regex `\s+` with replacement a space, global): a run is emitted as
one space when it ends, at the end of the list or before a non-space. -/
def collapseWs : List Char → List Char
  | [] => []
  | [c] => if isSpaceChar c then [' '] else [c]
  | c :: c2 :: cs =>
    if isSpaceChar c then
      if isSpaceChar c2 then collapseWs (c2 :: cs)
      else ' ' :: collapseWs (c2 :: cs)
    else c :: collapseWs (c2 :: cs)

/-- Lowercasing followed by removal of every character that is neither a
word nor a whitespace character (the middle steps shared by the code and
the spec). -/
def cleanCore (l : List Char) : List Char :=
  (l.map Char.toLower).filter (fun c => isWordChar c || isSpaceChar c)

/-- `ReconciliationService.cleanText`: trim, lowercase, remove every
character that is neither word nor whitespace, then collapse whitespace
runs to single spaces. The source applies trim FIRST. -/
def cleanText (text : String) : String :=
  String.mk (collapseWs (cleanCore (trimChars text.data)))

/-- Modelled from the spec, section 4.6.1: the reference cleaning function
`clean(s) = lowercase, strip all non-word or non-space, collapse whitespace,
trim`, with trim LAST. Written to compare against `cleanText`. -/
def cleanTextSpec (text : String) : String :=
  String.mk (trimChars (collapseWs (cleanCore text.data)))

example : cleanText "  Hello, World!  " = "hello world" := by decide
example : cleanText "hi !" = "hi " := by decide
example : cleanTextSpec "hi !" = "hi" := by decide
example : cleanText "[unintelligible]" = "unintelligible" := by decide

/-- Inner loop of one Wagner–Fischer row: walking the second string with
the cell above (head of `prev`), the cell diagonally above-left (`diag`)
and the cell to the left (`left`). This is the dynamic program implemented
by the fast-levenshtein library used by the source. -/
def levStepGo (x : Char) : Nat → Nat → List Char → List Nat → List Nat
  | _, _, [], _ => []
  | diag, left, y :: ys, prev =>
    let above := prev.headD 0
    let cost := if x = y then 0 else 1
    let v := min (above + 1) (min (left + 1) (diag + cost))
    v :: levStepGo x above v ys prev.tail

/-- One Wagner–Fischer row transition: from the row for a prefix of the
first string to the row after consuming one further character `x`. -/
def levStep (x : Char) (ys : List Char) (prev : List Nat) : List Nat :=
  let first := prev.headD 0 + 1
  first :: levStepGo x (prev.headD 0) first ys prev.tail

/-- All Wagner–Fischer rows, folded over the first string. -/
def levRows : List Char → List Char → List Nat → List Nat
  | [], _, row => row
  | x :: xs, ys, row => levRows xs ys (levStep x ys row)

/-- Levenshtein edit distance (insert, delete, substitute at cost one),
as computed by the fast-levenshtein dynamic program. -/
def levenshteinDist (a b : List Char) : Nat :=
  (levRows a b (List.range (b.length + 1))).getLastD 0

example : levenshteinDist "kitten".data "sitting".data = 3 := by decide
example : levenshteinDist "".data "abcd".data = 4 := by decide
example : levenshteinDist "flaw".data "lawn".data = 2 := by decide
example : levenshteinDist "test".data "test".data = 0 := by decide



/-- Formatting of the ratio with two decimals, as JS `toFixed(2)` renders
the non-negative ratios that occur here (round half away from zero). Only
the prefix of the reason string matters to the claims. -/
def toFixed2 (q : ℚ) : String :=
  let n : Int := (q * 100 + 1/2).floor
  let i := n / 100
  let f := (n % 100).toNat
  toString i ++ "." ++ (if f < 10 then "0" else "") ++ toString f

example : toFixed2 1 = "1.00" := by with_unfolding_all rfl
example : toFixed2 (6/7) = "0.86" := by with_unfolding_all rfl

/-- Substring test: some suffix of the haystack begins with the needle. -/
def strContainsChars (needle : List Char) : List Char → Bool
  | [] => needle.isPrefixOf []
  | c :: cs => needle.isPrefixOf (c :: cs) || strContainsChars needle cs

/-- String containment, mirroring the `toContain` checks of the test suite. -/
def strContains (hay needle : String) : Bool :=
  strContainsChars needle.data hay.data

example : strContains "Levenshtein ratio too high: 0.86" "Levenshtein" = true := by
  decide
example : strContains "Levenshtein ratio too high: 0.86" "unintelligible" = false := by
  decide

/-- Result record of `ReconciliationService.reconcile`. -/
structure ReconciliationResult where
  success : Bool
  originalText : String
  correctedText : String
  levenshteinDistance : Nat
  shouldApply : Bool
  reason : Option String
deriving DecidableEq, Repr

/-- The guard constant `MAX_LEVENSHTEIN_RATIO = 0.7`. -/
def MAX_LEVENSHTEIN_RATIO : ℚ := 7/10

/-- The window filter of `reconcile`: words with
`start ≥ clipStart` and `end ≤ clipEnd`. -/
def wordsInWindow (originalWords : List WhisperWord)
    (clipStart clipEnd : ℚ) : List WhisperWord :=
  originalWords.filter
    (fun w => decide (clipStart ≤ w.start ∧ w.«end» ≤ clipEnd))

/-- The `originalText` of `reconcile`: the window words joined by spaces. -/
def reconcileOriginalText (originalWords : List WhisperWord)
    (clipStart clipEnd : ℚ) : String :=
  String.intercalate " "
    ((wordsInWindow originalWords clipStart clipEnd).map (fun w => w.word))

/-- The `distance` of `reconcile`: edit distance of the cleaned texts. -/
def reconcileDistance (originalWords : List WhisperWord)
    (correctedText : String) (clipStart clipEnd : ℚ) : Nat :=
  levenshteinDist
    (cleanText (reconcileOriginalText originalWords clipStart clipEnd)).data
    (cleanText correctedText).data

/-- The `ratio` of `reconcile`: `distance / maxLength` when `maxLength > 0`,
else `0`. -/
def reconcileRatio (originalWords : List WhisperWord)
    (correctedText : String) (clipStart clipEnd : ℚ) : ℚ :=
  let maxLength :=
    max (cleanText (reconcileOriginalText originalWords clipStart clipEnd)).length
      (cleanText correctedText).length
  if 0 < maxLength then
    (reconcileDistance originalWords correctedText clipStart clipEnd : ℚ) / maxLength
  else 0

/-- `ReconciliationService.reconcile` from src/lib/reconciliation.ts:
the decision chain over the cleaned correction. -/
def reconcile (originalWords : List WhisperWord) (correctedText : String)
    (clipStart clipEnd : ℚ) : ReconciliationResult :=
  let originalText := reconcileOriginalText originalWords clipStart clipEnd
  let cleanedCorrection := cleanText correctedText
  let cleanedOriginal := cleanText originalText
  let distance := reconcileDistance originalWords correctedText clipStart clipEnd
  let ratio := reconcileRatio originalWords correctedText clipStart clipEnd
  if cleanedCorrection = "" ∨ cleanedCorrection = "[unintelligible]" ∨
      cleanedCorrection.length < 3 then
    { success := true, originalText := originalText
      correctedText := cleanedCorrection, levenshteinDistance := distance
      shouldApply := false
      reason := some "Corrected text is empty or unintelligible" }
  else if MAX_LEVENSHTEIN_RATIO < ratio then
    { success := true, originalText := originalText
      correctedText := cleanedCorrection, levenshteinDistance := distance
      shouldApply := false
      reason := some ("Levenshtein ratio too high: " ++ toFixed2 ratio) }
  else if cleanedOriginal = cleanedCorrection then
    { success := true, originalText := originalText
      correctedText := cleanedCorrection, levenshteinDistance := distance
      shouldApply := false, reason := some "No changes detected" }
  else
    { success := true, originalText := originalText
      correctedText := cleanedCorrection, levenshteinDistance := distance
      shouldApply := true, reason := none }

/-- One entry of the corrections array passed to `mergeTranscript`. -/
structure Correction where
  clipStart : ℚ
  clipEnd : ℚ
  correctedText : String
  shouldApply : Bool
deriving DecidableEq, Repr

/-- Result record of `ReconciliationService.mergeTranscript`. -/
structure MergedTranscript where
  text : String
  appliedCorrections : Nat
  skippedCorrections : Nat
deriving DecidableEq, Repr

/-- `ReconciliationService.isPunctuation`: the regex
`^[.,!?;:'"()-]+$`, that is, nonempty and made of those characters only. -/
def isPunctuation (word : String) : Bool :=
  !word.data.isEmpty &&
    word.data.all
      (fun c => c ∈ ['.', ',', '!', '?', ';', ':', '\'', '\"', '(', ')', '-'])

/-- Tail of `joinWords`: each further word is preceded by a space unless it
or the previous word is pure punctuation. -/
def joinWordsAux (prevWord : String) : List String → String
  | [] => ""
  | w :: ws =>
    (if !isPunctuation w && !isPunctuation prevWord then " " else "") ++
      w ++ joinWordsAux w ws

/-- `ReconciliationService.joinWords`: join with intelligent spacing. -/
def joinWords : List String → String
  | [] => ""
  | w :: ws => w ++ joinWordsAux w ws

example : joinWords ["a", ",", "b"] = "a,b" := by decide
example : joinWords ["a", "b"] = "a b" := by decide

/-- The correction loop of `mergeTranscript`: for each sorted correction,
skip it if not applicable, otherwise emit the original words wholly before
the window, emit the corrected text, and drop the original words whose
start lies before the window end. Returns the tokens and both counters. -/
def mergeCorrectionLoop (remaining : List WhisperWord) (acc : List String)
    (applied skipped : Nat) :
    List Correction → List String × Nat × Nat
  | [] => (acc ++ remaining.map (fun w => w.word), applied, skipped)
  | c :: cs =>
    if c.shouldApply then
      let before := remaining.takeWhile (fun w => decide (w.«end» ≤ c.clipStart))
      let rest := remaining.dropWhile (fun w => decide (w.«end» ≤ c.clipStart))
      let rest2 := rest.dropWhile (fun w => decide (w.start < c.clipEnd))
      mergeCorrectionLoop rest2
        (acc ++ before.map (fun w => w.word) ++ [c.correctedText])
        (applied + 1) skipped cs
    else
      mergeCorrectionLoop remaining acc applied (skipped + 1) cs

/-- `ReconciliationService.mergeTranscript` from src/lib/reconciliation.ts. -/
def mergeTranscript (originalWords : List WhisperWord)
    (corrections : List Correction) : MergedTranscript :=
  match corrections with
  | [] =>
    { text := String.intercalate " " (originalWords.map (fun w => w.word))
      appliedCorrections := 0, skippedCorrections := 0 }
  | _ :: _ =>
    let sorted :=
      corrections.mergeSort (fun a b => decide (a.clipStart ≤ b.clipStart))
    let result := mergeCorrectionLoop originalWords [] 0 0 sorted
    { text := joinWords result.1
      appliedCorrections := result.2.1
      skippedCorrections := result.2.2 }

/-- The ASR response shape used by `WhisperService.extractWords`; the words
field may be absent or null in a runtime payload, hence an option. -/
structure WhisperResponse where
  text : String
  words : Option (List WhisperWord)
  language : String
  duration : ℚ
deriving Repr

/-- `WhisperService.extractWords`: `response.words || []`. -/
def extractWords (response : WhisperResponse) : List WhisperWord :=
  response.words.getD []

/-- A persisted segment row; the worker maps each extracted word to one row
(src worker, `prisma.segment.createMany`). -/
structure SegmentRow where
  word : String
  start : ℚ
  «end» : ℚ
  confidence : ℚ
deriving DecidableEq, Repr

/-- The segment rows the worker persists for the extracted words. -/
def segmentRowsOf (words : List WhisperWord) : List SegmentRow :=
  words.map (fun w => ⟨w.word, w.start, w.«end», w.probability⟩)

example :
    (reconcile [⟨"test", 0, 1/2, 9/20⟩] "" 0 (1/2)).shouldApply = false := by
  with_unfolding_all decide

example :
    (reconcile [⟨"test", 0, 1/2, 9/20⟩] "test" 0 (1/2)).reason =
      some "No changes detected" := by
  with_unfolding_all decide

example :
    (mergeTranscript
      [⟨"Hello", 0, 1/2, 19/20⟩, ⟨"world", 1/2, 1, 19/20⟩]
      [⟨0, 1, "bad correction", false⟩]).text = "Hello world" := by
  with_unfolding_all decide

/-- The three original words of the merge scenario of the spec, section 8
item 5, and of the merge test of the repository test suite. -/
def mergeScenarioWords : List WhisperWord :=
  [⟨"Hello", 0, 1/2, 19/20⟩, ⟨"mumbly", 1/2, 1, 9/20⟩, ⟨"world", 1, 3/2, 19/20⟩]

/-- The single accepted correction of that scenario. -/
def mergeScenarioCorrections : List Correction :=
  [⟨3/10, 6/5, "beautiful", true⟩]

/-- C1, counterexample: on the scenario input the merged text is not
"beautiful world". The word "world" starts at 1.0, which is below the
window end 1.2, so the cursor-advance loop also replaces it. -/
theorem mergeScenario_text_ne_beautiful_world :
    (mergeTranscript mergeScenarioWords mergeScenarioCorrections).text ≠
      "beautiful world" := by
  with_unfolding_all decide

/-- C1, amended: on the scenario input `mergeTranscript` returns the text
"beautiful" with one applied and no skipped correction; the word "world"
is consumed by the correction window because its start 1.0 is less than
the window end 1.2. -/
theorem mergeScenario_merge_result :
    mergeTranscript mergeScenarioWords mergeScenarioCorrections =
      { text := "beautiful", appliedCorrections := 1,
        skippedCorrections := 0 } := by
  with_unfolding_all decide

set_option maxRecDepth 100000 in
/-- C2, code bug: the sentinel candidate "[unintelligible]" is not rejected
with the "empty or unintelligible" reason, because `cleanText` strips the
brackets before the comparison with the bracketed sentinel. Against the
original text "unintelligibles" the correction is even accepted, and on
the input of the repository test "should reject unintelligible
corrections" the reason does not contain "unintelligible" (it is the
Levenshtein reason), contradicting that test. -/
theorem reconcile_sentinel_not_rejected :
    (reconcile [⟨"unintelligibles", 0, 1, 9/20⟩]
        "[unintelligible]" 0 1).shouldApply = true ∧
    (reconcile [⟨"test", 0, 1/2, 9/20⟩]
        "[unintelligible]" 0 (1/2)).shouldApply = false ∧
    strContains
      ((reconcile [⟨"test", 0, 1/2, 9/20⟩]
          "[unintelligible]" 0 (1/2)).reason.getD "")
      "unintelligible" = false ∧
    (reconcile [⟨"test", 0, 1/2, 9/20⟩]
        "[unintelligible]" 0 (1/2)).reason =
      some ("Levenshtein ratio too high: " ++ toFixed2 (12/14)) := by
  with_unfolding_all decide

/-- C10: when the words field of the ASR response is absent or null,
`extractWords` returns the empty list, so the worker persists zero
segment rows and clustering yields zero clusters. -/
theorem extractWords_none_empty (resp : WhisperResponse)
    (opts : ClusteringOptions) (h : resp.words = none) :
    extractWords resp = [] ∧
    segmentRowsOf (extractWords resp) = [] ∧
    clusterLowConfidenceWords opts (extractWords resp) = [] := by
  have he : extractWords resp = [] := by
    simp [extractWords, h]
  refine ⟨he, ?_, ?_⟩
  · rw [he]; rfl
  · rw [he]; rfl

/-- C10, witness at a concrete response without words. -/
theorem extractWords_none_empty_witness :
    extractWords ⟨"", none, "en", 0⟩ = [] ∧
    segmentRowsOf (extractWords ⟨"", none, "en", 0⟩) = [] ∧
    clusterLowConfidenceWords defaultClusteringOptions
      (extractWords ⟨"", none, "en", 0⟩) = [] :=
  extractWords_none_empty ⟨"", none, "en", 0⟩ defaultClusteringOptions rfl

/-- A list is a prefix of itself followed by anything. -/
theorem isPrefixOf_append_self (a b : List Char) :
    a.isPrefixOf (a ++ b) = true := by
  induction a with
  | nil => simp [List.isPrefixOf]
  | cons c cs ih => simp [List.isPrefixOf, ih]

/-- Containment follows from being a prefix. -/
theorem strContainsChars_of_isPrefixOf (needle l : List Char)
    (h : needle.isPrefixOf l = true) : strContainsChars needle l = true := by
  cases l with
  | nil => exact h
  | cons c cs => simp [strContainsChars, h]

/-- Any reason built from the Levenshtein prefix contains "Levenshtein". -/
theorem strContains_levenshtein_reason (s : String) :
    strContains ("Levenshtein ratio too high: " ++ s) "Levenshtein" = true := by
  apply strContainsChars_of_isPrefixOf
  rw [String.data_append]
  have h : "Levenshtein ratio too high: ".data =
      "Levenshtein".data ++ " ratio too high: ".data := by decide
  rw [h, List.append_assoc]
  exact isPrefixOf_append_self _ _

/-- C5: whenever the candidate passes the emptiness or sentinel guard and
the edit ratio exceeds 0.70, `reconcile` rejects with a reason containing
"Levenshtein". -/
theorem reconcile_ratio_guard (ow : List WhisperWord) (ct : String)
    (cs ce : ℚ)
    (h1 : ¬(cleanText ct = "" ∨ cleanText ct = "[unintelligible]" ∨
      (cleanText ct).length < 3))
    (h2 : MAX_LEVENSHTEIN_RATIO < reconcileRatio ow ct cs ce) :
    (reconcile ow ct cs ce).shouldApply = false ∧
    strContains ((reconcile ow ct cs ce).reason.getD "")
      "Levenshtein" = true := by
  unfold reconcile
  rw [if_neg h1, if_pos h2]
  exact ⟨rfl, strContains_levenshtein_reason _⟩

/-- C5, witness: the empty window against the candidate "abcd" has ratio
1 > 0.70 and is rejected with the Levenshtein reason. -/
theorem reconcile_ratio_guard_witness :
    (reconcile [] "abcd" 0 1).shouldApply = false ∧
    strContains ((reconcile [] "abcd" 0 1).reason.getD "")
      "Levenshtein" = true :=
  reconcile_ratio_guard [] "abcd" 0 1
    (by with_unfolding_all decide) (by with_unfolding_all decide)

/-- Unfolding of the accumulator loop of `String.intercalate`. -/
theorem intercalate_go_spec (s : String) (ts : List String) :
    ∀ acc : String, String.intercalate.go acc s ts =
      acc ++ ts.foldr (fun x r => s ++ (x ++ r)) "" := by
  induction ts with
  | nil => intro acc; simp [String.intercalate.go]
  | cons x xs ih =>
    intro acc
    rw [String.intercalate.go, ih, List.foldr_cons, String.append_assoc,
      String.append_assoc]

/-- With no punctuation-only token in sight, the spacing loop inserts one
space before every further token. -/
theorem joinWordsAux_no_punct (ts : List String) :
    ∀ prev : String, isPunctuation prev = false →
      (∀ t ∈ ts, isPunctuation t = false) →
      joinWordsAux prev ts = ts.foldr (fun x r => " " ++ (x ++ r)) "" := by
  induction ts with
  | nil => intro prev _ _; rfl
  | cons x xs ih =>
    intro prev hprev hts
    have hx : isPunctuation x = false := hts x (List.mem_cons_self x xs)
    rw [joinWordsAux, ih x hx (fun t ht => hts t (List.mem_cons_of_mem x ht)),
      List.foldr_cons, hprev, hx]
    simp [String.append_assoc]

/-- On token lists without punctuation-only tokens, `joinWords` is the
plain single-space join. -/
theorem joinWords_eq_intercalate (ts : List String)
    (h : ∀ t ∈ ts, isPunctuation t = false) :
    joinWords ts = String.intercalate " " ts := by
  cases ts with
  | nil => rfl
  | cons x xs =>
    rw [joinWords, String.intercalate, intercalate_go_spec,
      joinWordsAux_no_punct xs x (h x (List.mem_cons_self x xs))
        (fun t ht => h t (List.mem_cons_of_mem x ht))]

/-- When every correction is skipped the merge loop leaves the cursor at
zero and emits every original word. -/
theorem mergeCorrectionLoop_all_skipped (cs : List Correction) :
    ∀ (rem : List WhisperWord) (acc : List String) (a s : Nat),
      (∀ c ∈ cs, c.shouldApply = false) →
      mergeCorrectionLoop rem acc a s cs =
        (acc ++ rem.map (fun w => w.word), a, s + cs.length) := by
  induction cs with
  | nil => intro rem acc a s _; rfl
  | cons c cs ih =>
    intro rem acc a s h
    have hc : c.shouldApply = false := h c (List.mem_cons_self c cs)
    rw [mergeCorrectionLoop, if_neg (by rw [hc]; exact Bool.false_ne_true),
      ih rem acc a (s + 1) (fun d hd => h d (List.mem_cons_of_mem c hd))]
    simp [List.length_cons]
    omega

/-- C3, amended: with every correction skipped, the merged text is the
words joined by `joinWords`; this equals the plain single-space join
whenever no original word is a punctuation-only token (for such tokens
`joinWords` inserts no surrounding space). -/
theorem mergeTranscript_all_skipped_text (ws : List WhisperWord)
    (cs : List Correction)
    (hskip : ∀ c ∈ cs, c.shouldApply = false)
    (hpunct : ∀ w ∈ ws, isPunctuation w.word = false) :
    (mergeTranscript ws cs).text =
      String.intercalate " " (ws.map (fun w => w.word)) := by
  cases cs with
  | nil => rfl
  | cons c cs' =>
    rw [mergeTranscript]
    have hsorted : ∀ d ∈ (c :: cs').mergeSort
        (fun a b => decide (a.clipStart ≤ b.clipStart)), d.shouldApply = false :=
      fun d hd => hskip d (List.mem_mergeSort.mp hd)
    rw [mergeCorrectionLoop_all_skipped _ ws [] 0 0 hsorted]
    simp only [List.nil_append]
    exact joinWords_eq_intercalate _
      (fun t ht => by
        obtain ⟨w, hw, rfl⟩ := List.mem_map.mp ht
        exact hpunct w hw)

/-- C3, witness: two plain words with one skipped correction give the
space-joined text. -/
theorem mergeTranscript_all_skipped_text_witness :
    (mergeTranscript [⟨"Hello", 0, 1/2, 19/20⟩, ⟨"world", 1/2, 1, 19/20⟩]
        [⟨0, 1, "bad correction", false⟩]).text =
      String.intercalate " "
        (([⟨"Hello", 0, 1/2, 19/20⟩, ⟨"world", 1/2, 1, 19/20⟩] :
            List WhisperWord).map (fun w => w.word)) :=
  mergeTranscript_all_skipped_text _ _
    (by with_unfolding_all decide) (by with_unfolding_all decide)

/-- C3, counterexample: with a punctuation-only original word and one
skipped correction, the merged text is not the single-space join of the
original words (the comma is attached without spaces). -/
theorem mergeTranscript_all_skipped_punct_counterexample :
    (mergeTranscript [⟨"a", 0, 1, 19/20⟩, ⟨",", 1, 2, 19/20⟩]
        [⟨0, 1, "x", false⟩]).text = "a," ∧
    (mergeTranscript [⟨"a", 0, 1, 19/20⟩, ⟨",", 1, 2, 19/20⟩]
        [⟨0, 1, "x", false⟩]).text ≠
      String.intercalate " "
        (([⟨"a", 0, 1, 19/20⟩, ⟨",", 1, 2, 19/20⟩] :
            List WhisperWord).map (fun w => w.word)) := by
  with_unfolding_all decide

/-- With every consecutive gap above the proximity threshold, the grouping
loop puts each word into its own cluster. -/
theorem groupLoop_singletons (p : ℚ) (ws : List WhisperWord) :
    ∀ w : WhisperWord,
      List.Chain' (fun a b => p < b.start - a.«end») (w :: ws) →
      groupLoop p [w] w ws = (w :: ws).map (fun x => [x]) := by
  induction ws with
  | nil => intro w _; rfl
  | cons w2 ws2 ih =>
    intro w hchain
    have h12 : p < w2.start - w.«end» :=
      (List.chain'_cons.mp hchain).1
    have htail : List.Chain' (fun a b => p < b.start - a.«end») (w2 :: ws2) :=
      (List.chain'_cons.mp hchain).2
    rw [groupLoop, if_neg (not_le.mpr h12), ih w2 htail]
    rfl

/-- A chain of strictly separated correction windows passes the merging
loop unchanged. -/
theorem mergeLoop_of_separated (rest : List ConfidenceCluster) :
    ∀ current : ConfidenceCluster,
      List.Chain' (fun a b => a.clipEnd < b.clipStart) (current :: rest) →
      mergeLoop current rest = current :: rest := by
  induction rest with
  | nil => intro current _; rfl
  | cons n rs ih =>
    intro current hchain
    have h1 : current.clipEnd < n.clipStart := (List.chain'_cons.mp hchain).1
    rw [mergeLoop, if_neg (not_le.mpr h1), ih n (List.chain'_cons.mp hchain).2]

/-- With strictly separated correction windows, overlap merging is the
identity. -/
theorem mergeOverlappingClusters_of_separated (l : List ConfidenceCluster)
    (h : List.Chain' (fun a b => a.clipEnd < b.clipStart) l) :
    mergeOverlappingClusters l = l := by
  cases l with
  | nil => rfl
  | cons c cs =>
    cases cs with
    | nil => rfl
    | cons d ds =>
      show mergeLoop c (d :: ds) = c :: d :: ds
      exact mergeLoop_of_separated (d :: ds) c h

/-- C4, amended: when consecutive low-confidence words are separated by
more than the proximity threshold, the grouping step emits one raw cluster
per low-confidence word; the final cluster count equals the number of
low-confidence words provided additionally that the annotated ±W/2
correction windows are pairwise separated (otherwise the window-merging
step fuses them). -/
theorem cluster_count_of_separated (opts : ClusteringOptions)
    (words : List WhisperWord)
    (hgap : List.Chain' (fun a b => opts.proximityThreshold < b.start - a.«end»)
      (lowConfidenceWordsOf opts words))
    (hsep : List.Chain' (fun a b => a.clipEnd < b.clipStart)
      (annotatedClustersOf opts words)) :
    (rawClustersOf opts words).length =
      (lowConfidenceWordsOf opts words).length ∧
    (clusterLowConfidenceWords opts words).length =
      (lowConfidenceWordsOf opts words).length := by
  have hraw : (rawClustersOf opts words).length =
      (lowConfidenceWordsOf opts words).length := by
    rw [rawClustersOf]
    cases hl : lowConfidenceWordsOf opts words with
    | nil => rfl
    | cons w ws =>
      rw [hl] at hgap
      show (groupLoop opts.proximityThreshold [w] w ws).length =
        (w :: ws).length
      rw [groupLoop_singletons opts.proximityThreshold ws w hgap,
        List.length_map]
  refine ⟨hraw, ?_⟩
  have hann : (annotatedClustersOf opts words).length =
      (lowConfidenceWordsOf opts words).length := by
    rw [annotatedClustersOf, List.length_map, List.enum_length, hraw]
  cases words with
  | nil => rfl
  | cons w ws =>
    rw [clusterLowConfidenceWords,
      mergeOverlappingClusters_of_separated _ hsep, hann]

/-- C4, witness: two far-apart low-confidence words whose correction
windows are also separated give one raw cluster each and two final
clusters. -/
theorem cluster_count_of_separated_witness :
    (rawClustersOf defaultClusteringOptions
        [⟨"a", 0, 1/2, 9/20⟩, ⟨"b", 21, 43/2, 9/20⟩]).length =
      (lowConfidenceWordsOf defaultClusteringOptions
        [⟨"a", 0, 1/2, 9/20⟩, ⟨"b", 21, 43/2, 9/20⟩]).length ∧
    (clusterLowConfidenceWords defaultClusteringOptions
        [⟨"a", 0, 1/2, 9/20⟩, ⟨"b", 21, 43/2, 9/20⟩]).length =
      (lowConfidenceWordsOf defaultClusteringOptions
        [⟨"a", 0, 1/2, 9/20⟩, ⟨"b", 21, 43/2, 9/20⟩]).length :=
  cluster_count_of_separated defaultClusteringOptions
    [⟨"a", 0, 1/2, 9/20⟩, ⟨"b", 21, 43/2, 9/20⟩]
    (by
      have h : lowConfidenceWordsOf defaultClusteringOptions
          [⟨"a", 0, 1/2, 9/20⟩, ⟨"b", 21, 43/2, 9/20⟩] =
          [⟨"a", 0, 1/2, 9/20⟩, ⟨"b", 21, 43/2, 9/20⟩] := by
        with_unfolding_all decide
      rw [h]
      exact List.chain'_cons.mpr
        ⟨by with_unfolding_all decide, List.chain'_singleton _⟩)
    (by
      have h : annotatedClustersOf defaultClusteringOptions
          [⟨"a", 0, 1/2, 9/20⟩, ⟨"b", 21, 43/2, 9/20⟩] =
          [⟨"cluster_0", [⟨"a", 0, 1/2, 9/20⟩], 1/4, 0, 1/2, 9/20, 0, 41/4⟩,
           ⟨"cluster_1", [⟨"b", 21, 43/2, 9/20⟩], 85/4, 21, 43/2, 9/20,
             45/4, 125/4⟩] := by
        with_unfolding_all decide
      rw [h]
      exact List.chain'_cons.mpr
        ⟨by with_unfolding_all decide, List.chain'_singleton _⟩)

/-- C4, counterexample: two low-confidence words with a gap of 5.5 s,
above the default proximity threshold of 5 s, still end in ONE cluster,
because their ±10 s correction windows overlap and are merged; the claim
predicts one cluster per low-confidence word, here two. -/
theorem cluster_count_gap_counterexample :
    List.Chain'
      (fun a b => defaultClusteringOptions.proximityThreshold <
        b.start - a.«end»)
      (lowConfidenceWordsOf defaultClusteringOptions
        [⟨"a", 0, 1/2, 9/20⟩, ⟨"b", 6, 13/2, 9/20⟩]) ∧
    (lowConfidenceWordsOf defaultClusteringOptions
      [⟨"a", 0, 1/2, 9/20⟩, ⟨"b", 6, 13/2, 9/20⟩]).length = 2 ∧
    (clusterLowConfidenceWords defaultClusteringOptions
      [⟨"a", 0, 1/2, 9/20⟩, ⟨"b", 6, 13/2, 9/20⟩]).length = 1 := by
  have h : lowConfidenceWordsOf defaultClusteringOptions
      [⟨"a", 0, 1/2, 9/20⟩, ⟨"b", 6, 13/2, 9/20⟩] =
      [⟨"a", 0, 1/2, 9/20⟩, ⟨"b", 6, 13/2, 9/20⟩] := by
    with_unfolding_all decide
  refine ⟨?_, ?_, ?_⟩
  · rw [h]
    exact List.chain'_cons.mpr
      ⟨by with_unfolding_all decide, List.chain'_singleton _⟩
  · with_unfolding_all decide
  · with_unfolding_all decide

/-- A nonempty list of rationals that are all below a bound has sum below
the bound times the length. -/
theorem list_sum_lt_mul_length (τ : ℚ) (l : List ℚ) (hne : l ≠ [])
    (h : ∀ x ∈ l, x < τ) : l.sum < τ * l.length := by
  induction l with
  | nil => exact absurd rfl hne
  | cons x xs ih =>
    cases xs with
    | nil =>
      simp only [List.sum_cons, List.sum_nil, add_zero, List.length_cons,
        List.length_nil]
      push_cast
      linarith [h x (List.mem_cons_self x [])]
    | cons y ys =>
      have hx : x < τ := h x (List.mem_cons_self x (y :: ys))
      have hs : (y :: ys).sum < τ * (y :: ys).length :=
        ih (List.cons_ne_nil y ys)
          (fun z hz => h z (List.mem_cons_of_mem x hz))
      rw [List.sum_cons, List.length_cons, Nat.cast_add, Nat.cast_one]
      nlinarith

/-- A weighted mean of two values below a bound stays below the bound. -/
theorem weighted_mean_lt (a b τ m n : ℚ) (ha : a < τ) (hb : b < τ)
    (hm : 0 < m) (hn : 0 < n) : (a * m + b * n) / (m + n) < τ := by
  rw [div_lt_iff₀ (by linarith)]
  nlinarith

/-- The grouping loop partitions its input: the clusters flatten back to
the current cluster followed by the remaining words. -/
theorem groupLoop_flatten (p : ℚ) (rest : List WhisperWord) :
    ∀ (cur : List WhisperWord) (last : WhisperWord),
      (groupLoop p cur last rest).flatten = cur ++ rest := by
  induction rest with
  | nil => intro cur last; simp [groupLoop]
  | cons w ws ih =>
    intro cur last
    rw [groupLoop]
    by_cases hc : w.start - last.«end» ≤ p
    · rw [if_pos hc, ih (cur ++ [w]) w, List.append_assoc]
      rfl
    · rw [if_neg hc, List.flatten_cons, ih [w] w]
      rfl

/-- The grouping loop never emits an empty cluster. -/
theorem groupLoop_ne_nil (p : ℚ) (rest : List WhisperWord) :
    ∀ (cur : List WhisperWord) (last : WhisperWord), cur ≠ [] →
      ∀ c ∈ groupLoop p cur last rest, c ≠ [] := by
  induction rest with
  | nil =>
    intro cur last hcur c hc
    rw [groupLoop, List.mem_singleton] at hc
    exact hc ▸ hcur
  | cons w ws ih =>
    intro cur last hcur c hc
    rw [groupLoop] at hc
    by_cases hcond : w.start - last.«end» ≤ p
    · rw [if_pos hcond] at hc
      exact ih (cur ++ [w]) w (by simp) c hc
    · rw [if_neg hcond] at hc
      rcases List.mem_cons.mp hc with rfl | hc2
      · exact hcur
      · exact ih [w] w (List.cons_ne_nil w []) c hc2

/-- Every word of an emitted raw cluster is a low-confidence word of the
input. -/
theorem rawClustersOf_mem_subset (opts : ClusteringOptions)
    (words : List WhisperWord) (c : List WhisperWord)
    (hc : c ∈ rawClustersOf opts words) :
    ∀ x ∈ c, x ∈ lowConfidenceWordsOf opts words := by
  intro x hx
  rw [rawClustersOf] at hc
  cases hl : lowConfidenceWordsOf opts words with
  | nil =>
    rw [hl] at hc
    exact absurd hc (List.not_mem_nil c)
  | cons w ws =>
    rw [hl] at hc
    have hc2 : c ∈ groupLoop opts.proximityThreshold [w] w ws := hc
    have hflat : x ∈ (groupLoop opts.proximityThreshold [w] w ws).flatten :=
      List.mem_flatten.mpr ⟨c, hc2, hx⟩
    rw [groupLoop_flatten opts.proximityThreshold ws [w] w] at hflat
    exact hflat

/-- Raw clusters are nonempty. -/
theorem rawClustersOf_ne_nil (opts : ClusteringOptions)
    (words : List WhisperWord) (c : List WhisperWord)
    (hc : c ∈ rawClustersOf opts words) : c ≠ [] := by
  rw [rawClustersOf] at hc
  cases hl : lowConfidenceWordsOf opts words with
  | nil =>
    rw [hl] at hc
    exact absurd hc (List.not_mem_nil c)
  | cons w ws =>
    rw [hl] at hc
    exact groupLoop_ne_nil opts.proximityThreshold ws [w] w
      (List.cons_ne_nil w []) c hc

/-- The average confidence of an annotated nonempty cluster of words that
are all below the threshold is below the threshold. -/
theorem mkCluster_averageConfidence_lt (opts : ClusteringOptions) (τ : ℚ)
    (i : Nat) (cw : List WhisperWord) (hne : cw ≠ [])
    (h : ∀ x ∈ cw, x.probability < τ) :
    (mkCluster opts i cw).averageConfidence < τ := by
  show (cw.map (fun w => w.probability)).sum / (cw.length : ℚ) < τ
  have hlen : 0 < (cw.length : ℚ) := by
    exact_mod_cast List.length_pos.mpr hne
  rw [div_lt_iff₀ hlen]
  have hmap : (cw.map (fun w => w.probability)) ≠ [] := by
    simpa using hne
  have := list_sum_lt_mul_length τ (cw.map (fun w => w.probability)) hmap
    (fun x hx => by
      obtain ⟨w, hw, rfl⟩ := List.mem_map.mp hx
      exact h w hw)
  rw [List.length_map] at this
  exact this

/-- Merging two clusters with below-threshold averages and nonempty word
lists yields a below-threshold average and a nonempty word list. -/
theorem mergeTwoClusters_averageConfidence_lt (τ : ℚ)
    (a b : ConfidenceCluster)
    (ha : a.averageConfidence < τ ∧ a.words ≠ [])
    (hb : b.averageConfidence < τ ∧ b.words ≠ []) :
    (mergeTwoClusters a b).averageConfidence < τ ∧
    (mergeTwoClusters a b).words ≠ [] := by
  constructor
  · show (a.averageConfidence * (a.words.length : ℚ) +
      b.averageConfidence * (b.words.length : ℚ)) /
      ((a.words.length : ℚ) + (b.words.length : ℚ)) < τ
    exact weighted_mean_lt _ _ _ _ _ ha.1 hb.1
      (by exact_mod_cast List.length_pos.mpr ha.2)
      (by exact_mod_cast List.length_pos.mpr hb.2)
  · show a.words ++ b.words ≠ []
    simp [ha.2]

/-- The merging loop preserves the below-threshold average invariant. -/
theorem mergeLoop_averageConfidence_lt (τ : ℚ)
    (rest : List ConfidenceCluster) :
    ∀ current : ConfidenceCluster,
      (current.averageConfidence < τ ∧ current.words ≠ []) →
      (∀ c ∈ rest, c.averageConfidence < τ ∧ c.words ≠ []) →
      ∀ c ∈ mergeLoop current rest, c.averageConfidence < τ := by
  induction rest with
  | nil =>
    intro current hcur _ c hc
    rw [mergeLoop, List.mem_singleton] at hc
    exact hc ▸ hcur.1
  | cons n rs ih =>
    intro current hcur hrest c hc
    rw [mergeLoop] at hc
    by_cases hcond : n.clipStart ≤ current.clipEnd
    · rw [if_pos hcond] at hc
      exact ih (mergeTwoClusters current n)
        (mergeTwoClusters_averageConfidence_lt τ current n hcur
          (hrest n (List.mem_cons_self n rs)))
        (fun d hd => hrest d (List.mem_cons_of_mem n hd)) c hc
    · rw [if_neg hcond] at hc
      rcases List.mem_cons.mp hc with rfl | hc2
      · exact hcur.1
      · exact ih n (hrest n (List.mem_cons_self n rs))
          (fun d hd => hrest d (List.mem_cons_of_mem n hd)) c hc2

/-- Every annotated cluster has below-threshold average and nonempty
words. -/
theorem annotatedClustersOf_averageConfidence_lt (opts : ClusteringOptions)
    (words : List WhisperWord) :
    ∀ c ∈ annotatedClustersOf opts words,
      c.averageConfidence < opts.confidenceThreshold ∧ c.words ≠ [] := by
  intro c hc
  rw [annotatedClustersOf] at hc
  obtain ⟨iw, hiw, rfl⟩ := List.mem_map.mp hc
  have hmem : iw.2 ∈ rawClustersOf opts words := by
    have hsnd := List.mem_map_of_mem Prod.snd hiw
    rw [List.enum_map_snd] at hsnd
    exact hsnd
  have hne := rawClustersOf_ne_nil opts words iw.2 hmem
  have hprob : ∀ x ∈ iw.2, x.probability < opts.confidenceThreshold := by
    intro x hx
    have hxl := rawClustersOf_mem_subset opts words iw.2 hmem x hx
    rw [lowConfidenceWordsOf, List.mem_filter] at hxl
    exact of_decide_eq_true hxl.2
  exact ⟨mkCluster_averageConfidence_lt opts opts.confidenceThreshold
    iw.1 iw.2 hne hprob, hne⟩

/-- C9: every cluster returned by `clusterLowConfidenceWords` has average
confidence strictly below the confidence threshold; the per-cluster mean
and the word-count-weighted mean used by merging both preserve the
bound. -/
theorem clusterLowConfidenceWords_averageConfidence_lt
    (opts : ClusteringOptions) (words : List WhisperWord) :
    ∀ c ∈ clusterLowConfidenceWords opts words,
      c.averageConfidence < opts.confidenceThreshold := by
  intro c hc
  cases words with
  | nil => exact absurd hc (List.not_mem_nil c)
  | cons w0 ws0 =>
    rw [clusterLowConfidenceWords] at hc
    have hAnn := annotatedClustersOf_averageConfidence_lt opts (w0 :: ws0)
    cases hA : annotatedClustersOf opts (w0 :: ws0) with
    | nil =>
      rw [hA] at hc
      exact absurd hc (List.not_mem_nil c)
    | cons a as =>
      rw [hA] at hc hAnn
      cases as with
      | nil =>
        rw [mergeOverlappingClusters, List.mem_singleton] at hc
        exact hc ▸ (hAnn a (List.mem_cons_self a [])).1
      | cons b bs =>
        have hc2 : c ∈ mergeLoop a (b :: bs) := hc
        exact mergeLoop_averageConfidence_lt opts.confidenceThreshold
          (b :: bs) a (hAnn a (List.mem_cons_self a (b :: bs)))
          (fun d hd => hAnn d (List.mem_cons_of_mem a hd)) c hc2

/-- C9, witness: a single low-confidence word gives one cluster with
average 0.45, below the default threshold 0.60. -/
theorem clusterLowConfidenceWords_averageConfidence_lt_witness :
    (⟨"cluster_0", [⟨"mumbly", 10, 21/2, 9/20⟩], 41/4, 10, 21/2, 9/20,
        1/4, 81/4⟩ : ConfidenceCluster).averageConfidence <
      defaultClusteringOptions.confidenceThreshold :=
  clusterLowConfidenceWords_averageConfidence_lt defaultClusteringOptions
    [⟨"mumbly", 10, 21/2, 9/20⟩]
    ⟨"cluster_0", [⟨"mumbly", 10, 21/2, 9/20⟩], 41/4, 10, 21/2, 9/20,
      1/4, 81/4⟩
    (by with_unfolding_all decide)

/-- The default-valued head of a nonempty list is a member. -/
theorem headI_mem_of_ne_nil {α : Type} [Inhabited α] (l : List α)
    (h : l ≠ []) : l.headI ∈ l := by
  cases l with
  | nil => exact absurd rfl h
  | cons x xs => exact List.mem_cons_self x xs

/-- The default-valued last element of a nonempty list is a member. -/
theorem getLastI_mem_of_ne_nil {α : Type} [Inhabited α] (l : List α)
    (h : l ≠ []) : l.getLastI ∈ l := by
  rw [List.getLastI_eq_getLast?, List.getLast?_eq_getLast l h]
  exact List.getLast_mem h

/-- The default-valued last element through a known `getLast?`. -/
theorem getLastI_eq_of_getLast? {α : Type} [Inhabited α] (l : List α)
    (a : α) (h : l.getLast? = some a) : l.getLastI = a := by
  rw [List.getLastI_eq_getLast?, h]

/-- The default-valued head of an append with nonempty left part. -/
theorem headI_append_of_ne_nil {α : Type} [Inhabited α] (l l' : List α)
    (h : l ≠ []) : (l ++ l').headI = l.headI := by
  cases l with
  | nil => exact absurd rfl h
  | cons x xs => rfl

/-- In a nonempty list sorted by start, the head starts no later than the
last element. -/
theorem sorted_headI_start_le_getLastI (l : List WhisperWord)
    (hne : l ≠ []) (hs : l.Pairwise (fun a b => a.start ≤ b.start)) :
    l.headI.start ≤ l.getLastI.start := by
  cases l with
  | nil => exact absurd rfl hne
  | cons x xs =>
    cases xs with
    | nil => exact le_refl _
    | cons y ys =>
      have hlast : (x :: y :: ys).getLastI = (y :: ys).getLastI := by
        rw [List.getLastI_eq_getLast?, List.getLastI_eq_getLast?,
          List.getLast?_cons_cons]
      rw [hlast]
      exact (List.pairwise_cons.mp hs).1 _
        (getLastI_mem_of_ne_nil (y :: ys) (List.cons_ne_nil y ys))

/-- The grouping loop always emits at least one cluster. -/
theorem groupLoop_result_ne_nil (p : ℚ) (rest : List WhisperWord) :
    ∀ (cur : List WhisperWord) (last : WhisperWord),
      groupLoop p cur last rest ≠ [] := by
  induction rest with
  | nil => intro cur last; exact List.cons_ne_nil cur []
  | cons w ws ih =>
    intro cur last
    rw [groupLoop]
    by_cases hc : w.start - last.«end» ≤ p
    · rw [if_pos hc]; exact ih (cur ++ [w]) w
    · rw [if_neg hc]; exact List.cons_ne_nil _ _

/-- Boundary structure of the grouping loop: consecutive emitted clusters
are separated by a gap above the proximity threshold (measured from the
last word of the earlier cluster to the first word of the later one), and
the first emitted cluster extends the current cluster. -/
theorem groupLoop_chain (p : ℚ) (rest : List WhisperWord) :
    ∀ (cur : List WhisperWord) (last : WhisperWord),
      cur.getLast? = some last →
      List.Chain' (fun c d => p < d.headI.start - c.getLastI.«end»)
        (groupLoop p cur last rest) ∧
      (groupLoop p cur last rest).headI.headI = cur.headI := by
  induction rest with
  | nil =>
    intro cur last _
    exact ⟨List.chain'_singleton cur, rfl⟩
  | cons w ws ih =>
    intro cur last hlast
    have hcurne : cur ≠ [] := by
      intro hnil
      rw [hnil] at hlast
      exact Option.noConfusion hlast
    rw [groupLoop]
    by_cases hc : w.start - last.«end» ≤ p
    · rw [if_pos hc]
      obtain ⟨hchain, hhead⟩ := ih (cur ++ [w]) w (List.getLast?_concat cur)
      exact ⟨hchain, by rw [hhead, headI_append_of_ne_nil cur [w] hcurne]⟩
    · rw [if_neg hc]
      obtain ⟨hchain, hhead⟩ := ih [w] w rfl
      obtain ⟨g, gs, hg⟩ :=
        List.exists_cons_of_ne_nil (groupLoop_result_ne_nil p ws [w] w)
      rw [hg]
      rw [hg] at hchain hhead
      refine ⟨List.chain'_cons.mpr ⟨?_, hchain⟩, rfl⟩
      have hgw : g.headI = w := hhead
      rw [hgw, getLastI_eq_of_getLast? cur last hlast]
      linarith [not_le.mp hc]

/-- The raw clusters flatten back to the low-confidence word list. -/
theorem rawClustersOf_flatten (opts : ClusteringOptions)
    (words : List WhisperWord) :
    (rawClustersOf opts words).flatten = lowConfidenceWordsOf opts words := by
  rw [rawClustersOf]
  cases hl : lowConfidenceWordsOf opts words with
  | nil => rfl
  | cons w ws =>
    show (groupLoop opts.proximityThreshold [w] w ws).flatten = w :: ws
    rw [groupLoop_flatten]
    rfl

/-- Each raw cluster is a sublist of the low-confidence word list. -/
theorem rawClustersOf_sublist (opts : ClusteringOptions)
    (words : List WhisperWord) (c : List WhisperWord)
    (hc : c ∈ rawClustersOf opts words) :
    c.Sublist (lowConfidenceWordsOf opts words) := by
  have h := List.sublist_flatten_of_mem hc
  rwa [rawClustersOf_flatten] at h

/-- Consecutive raw clusters are separated by more than the proximity
threshold, measured between the last and first words at the boundary. -/
theorem rawClustersOf_chain (opts : ClusteringOptions)
    (words : List WhisperWord) :
    List.Chain'
      (fun c d => opts.proximityThreshold <
        d.headI.start - c.getLastI.«end»)
      (rawClustersOf opts words) := by
  rw [rawClustersOf]
  cases hl : lowConfidenceWordsOf opts words with
  | nil => exact List.chain'_nil
  | cons w ws =>
    exact (groupLoop_chain opts.proximityThreshold ws [w] w rfl).1

/-- A chain is transported along a map when the relation transfer only
needs facts about members. -/
theorem chain'_map_mem {α β : Type} (R : α → α → Prop) (S : β → β → Prop)
    (f : α → β) :
    ∀ l : List α, List.Chain' R l →
      (∀ a ∈ l, ∀ b ∈ l, R a b → S (f a) (f b)) →
      List.Chain' S (l.map f)
  | [], _, _ => List.chain'_nil
  | [a], _, _ => List.chain'_singleton (f a)
  | a :: b :: t, hc, ht => by
    rw [List.map_cons, List.map_cons]
    have hab := (List.chain'_cons.mp hc).1
    refine List.chain'_cons.mpr ⟨?_, ?_⟩
    · exact ht a (List.mem_cons_self a (b :: t)) b
        (List.mem_cons_of_mem a (List.mem_cons_self b t)) hab
    · have := chain'_map_mem R S f (b :: t) (List.chain'_cons.mp hc).2
        (fun x hx y hy hxy =>
          ht x (List.mem_cons_of_mem a hx) y (List.mem_cons_of_mem a hy) hxy)
      rw [List.map_cons] at this
      exact this

/-- A chain on a list induces a chain on the second components of its
enumeration. -/
theorem chain'_enum_snd {α : Type} (R : α → α → Prop) (l : List α)
    (h : List.Chain' R l) :
    List.Chain' (fun x y : Nat × α => R x.2 y.2) l.enum := by
  refine (List.chain'_map Prod.snd).mp ?_
  rw [List.enum_map_snd]
  exact h

/-- A member of an enumeration projects to a member of the list. -/
theorem enum_snd_mem {α : Type} (l : List α) (x : Nat × α)
    (h : x ∈ l.enum) : x.2 ∈ l := by
  have hsnd := List.mem_map_of_mem Prod.snd h
  rwa [List.enum_map_snd] at hsnd

/-- The clip window of an annotated cluster, unfolded. -/
theorem mkCluster_clip_eq (opts : ClusteringOptions) (i : Nat)
    (cw : List WhisperWord) :
    (mkCluster opts i cw).clipStart =
      max 0 ((cw.headI.start + cw.getLastI.«end») / 2 -
        opts.correctionWindow / 2) ∧
    (mkCluster opts i cw).clipEnd =
      (cw.headI.start + cw.getLastI.«end») / 2 +
        opts.correctionWindow / 2 :=
  ⟨rfl, rfl⟩

/-- Derived bounds of a nonempty sorted cluster of wellformed words:
its start does not exceed, and stays strictly below, its end, and both
are non-negative. -/
theorem cluster_start_lt_end (cw : List WhisperWord) (hne : cw ≠ [])
    (hs : cw.Pairwise (fun a b => a.start ≤ b.start))
    (hb : ∀ w ∈ cw, 0 ≤ w.start ∧ w.start < w.«end») :
    0 ≤ cw.headI.start ∧ cw.headI.start < cw.getLastI.«end» := by
  have h1 : cw.headI.start ≤ cw.getLastI.start :=
    sorted_headI_start_le_getLastI cw hne hs
  have h2 := hb cw.getLastI (getLastI_mem_of_ne_nil cw hne)
  have h3 := hb cw.headI (headI_mem_of_ne_nil cw hne)
  exact ⟨h3.1, lt_of_le_of_lt h1 h2.2⟩

/-- The clip window of a wellformed cluster is a proper interval. -/
theorem mkCluster_clipStart_lt_clipEnd (opts : ClusteringOptions) (i : Nat)
    (cw : List WhisperWord) (hne : cw ≠ [])
    (hs : cw.Pairwise (fun a b => a.start ≤ b.start))
    (hb : ∀ w ∈ cw, 0 ≤ w.start ∧ w.start < w.«end»)
    (hW : 0 < opts.correctionWindow) :
    (mkCluster opts i cw).clipStart < (mkCluster opts i cw).clipEnd := by
  obtain ⟨hcs, hce⟩ := mkCluster_clip_eq opts i cw
  rw [hcs, hce]
  obtain ⟨h0, hlt⟩ := cluster_start_lt_end cw hne hs hb
  apply max_lt
  · linarith
  · linarith

/-- Boundary separation of two wellformed clusters makes the clip windows
of the annotated clusters monotone. -/
theorem mkCluster_clip_mono (opts : ClusteringOptions) (i j : Nat)
    (cw dw : List WhisperWord)
    (hcne : cw ≠ []) (hdne : dw ≠ [])
    (hcs : cw.Pairwise (fun a b => a.start ≤ b.start))
    (hds : dw.Pairwise (fun a b => a.start ≤ b.start))
    (hcb : ∀ w ∈ cw, 0 ≤ w.start ∧ w.start < w.«end»)
    (hdb : ∀ w ∈ dw, 0 ≤ w.start ∧ w.start < w.«end»)
    (hp : 0 ≤ opts.proximityThreshold)
    (hrel : opts.proximityThreshold <
      dw.headI.start - cw.getLastI.«end») :
    (mkCluster opts i cw).clipStart ≤ (mkCluster opts j dw).clipStart ∧
    (mkCluster opts i cw).clipEnd ≤ (mkCluster opts j dw).clipEnd := by
  obtain ⟨hcs1, hce1⟩ := mkCluster_clip_eq opts i cw
  obtain ⟨hcs2, hce2⟩ := mkCluster_clip_eq opts j dw
  rw [hcs1, hce1, hcs2, hce2]
  obtain ⟨_, hclt⟩ := cluster_start_lt_end cw hcne hcs hcb
  obtain ⟨_, hdlt⟩ := cluster_start_lt_end dw hdne hds hdb
  have hcenter : (cw.headI.start + cw.getLastI.«end») / 2 ≤
      (dw.headI.start + dw.getLastI.«end») / 2 := by linarith
  constructor
  · exact max_le_max (le_refl 0) (by linarith)
  · linarith

/-- Under the input invariants, every annotated cluster has a proper clip
window. -/
theorem annotatedClustersOf_clip_lt (opts : ClusteringOptions)
    (words : List WhisperWord)
    (hsorted : words.Pairwise (fun a b => a.start ≤ b.start))
    (hw : ∀ w ∈ words, 0 ≤ w.start ∧ w.start < w.«end»)
    (hW : 0 < opts.correctionWindow) :
    ∀ c ∈ annotatedClustersOf opts words, c.clipStart < c.clipEnd := by
  intro c hc
  rw [annotatedClustersOf] at hc
  obtain ⟨iw, hiw, rfl⟩ := List.mem_map.mp hc
  have hmem : iw.2 ∈ rawClustersOf opts words :=
    enum_snd_mem _ iw hiw
  have hne := rawClustersOf_ne_nil opts words iw.2 hmem
  have hsub := rawClustersOf_sublist opts words iw.2 hmem
  have hsortc : iw.2.Pairwise (fun a b => a.start ≤ b.start) :=
    List.Pairwise.sublist hsub
      (List.Pairwise.sublist (List.filter_sublist words) hsorted)
  have hbc : ∀ w ∈ iw.2, 0 ≤ w.start ∧ w.start < w.«end» := by
    intro x hx
    have hxl := rawClustersOf_mem_subset opts words iw.2 hmem x hx
    rw [lowConfidenceWordsOf, List.mem_filter] at hxl
    exact hw x hxl.1
  exact mkCluster_clipStart_lt_clipEnd opts iw.1 iw.2 hne hsortc hbc hW

/-- Under the input invariants, the annotated clip windows are monotone
along the cluster sequence. -/
theorem annotatedClustersOf_chain (opts : ClusteringOptions)
    (words : List WhisperWord)
    (hsorted : words.Pairwise (fun a b => a.start ≤ b.start))
    (hw : ∀ w ∈ words, 0 ≤ w.start ∧ w.start < w.«end»)
    (hp : 0 ≤ opts.proximityThreshold) :
    List.Chain'
      (fun a b => a.clipStart ≤ b.clipStart ∧ a.clipEnd ≤ b.clipEnd)
      (annotatedClustersOf opts words) := by
  rw [annotatedClustersOf]
  apply chain'_map_mem
    (fun x y : Nat × List WhisperWord =>
      opts.proximityThreshold < y.2.headI.start - x.2.getLastI.«end»)
  · exact chain'_enum_snd _ _ (rawClustersOf_chain opts words)
  · intro a ha b hb hab
    have hamem : a.2 ∈ rawClustersOf opts words := enum_snd_mem _ a ha
    have hbmem : b.2 ∈ rawClustersOf opts words := enum_snd_mem _ b hb
    have hsortl : (lowConfidenceWordsOf opts words).Pairwise
        (fun a b => a.start ≤ b.start) :=
      List.Pairwise.sublist (List.filter_sublist words) hsorted
    have hbl : ∀ x ∈ lowConfidenceWordsOf opts words,
        0 ≤ x.start ∧ x.start < x.«end» := by
      intro x hx
      rw [lowConfidenceWordsOf, List.mem_filter] at hx
      exact hw x hx.1
    exact mkCluster_clip_mono opts a.1 b.1 a.2 b.2
      (rawClustersOf_ne_nil opts words a.2 hamem)
      (rawClustersOf_ne_nil opts words b.2 hbmem)
      (List.Pairwise.sublist (rawClustersOf_sublist opts words a.2 hamem)
        hsortl)
      (List.Pairwise.sublist (rawClustersOf_sublist opts words b.2 hbmem)
        hsortl)
      (fun x hx => hbl x (rawClustersOf_mem_subset opts words a.2 hamem x hx))
      (fun x hx => hbl x (rawClustersOf_mem_subset opts words b.2 hbmem x hx))
      hp hab

/-- Invariant of the merging loop: with proper and monotone windows on the
way in, the output windows are proper, bounded below by the current clip
start, and pairwise disjoint in order. -/
theorem mergeLoop_disjoint (rest : List ConfidenceCluster) :
    ∀ current : ConfidenceCluster,
      (∀ c ∈ current :: rest, c.clipStart < c.clipEnd) →
      List.Chain'
        (fun a b => a.clipStart ≤ b.clipStart ∧ a.clipEnd ≤ b.clipEnd)
        (current :: rest) →
      (∀ c ∈ mergeLoop current rest, c.clipStart < c.clipEnd) ∧
      (∀ c ∈ mergeLoop current rest, current.clipStart ≤ c.clipStart) ∧
      (mergeLoop current rest).Pairwise
        (fun a b => a.clipEnd ≤ b.clipStart) := by
  induction rest with
  | nil =>
    intro current hwf _
    refine ⟨?_, ?_, ?_⟩
    · intro c hc
      rw [mergeLoop, List.mem_singleton] at hc
      exact hc ▸ hwf current (List.mem_cons_self current [])
    · intro c hc
      rw [mergeLoop, List.mem_singleton] at hc
      exact hc ▸ le_refl _
    · exact List.pairwise_singleton _ _
  | cons n rs ih =>
    intro current hwf hchain
    have hrel : current.clipStart ≤ n.clipStart ∧
        current.clipEnd ≤ n.clipEnd := (List.chain'_cons.mp hchain).1
    have htail : List.Chain'
        (fun a b => a.clipStart ≤ b.clipStart ∧ a.clipEnd ≤ b.clipEnd)
        (n :: rs) := (List.chain'_cons.mp hchain).2
    rw [mergeLoop]
    by_cases hcond : n.clipStart ≤ current.clipEnd
    · rw [if_pos hcond]
      have hmergeStart : (mergeTwoClusters current n).clipStart =
          current.clipStart := min_eq_left hrel.1
      have hmergeEnd : (mergeTwoClusters current n).clipEnd =
          n.clipEnd := max_eq_right hrel.2
      have hwf2 : ∀ c ∈ mergeTwoClusters current n :: rs,
          c.clipStart < c.clipEnd := by
        intro c hc
        rcases List.mem_cons.mp hc with rfl | hc2
        · rw [hmergeStart, hmergeEnd]
          calc current.clipStart < current.clipEnd :=
                hwf current (List.mem_cons_self current (n :: rs))
            _ ≤ n.clipEnd := hrel.2
        · exact hwf c (List.mem_cons_of_mem current
            (List.mem_cons_of_mem n hc2))
      have hchain2 : List.Chain'
          (fun a b => a.clipStart ≤ b.clipStart ∧ a.clipEnd ≤ b.clipEnd)
          (mergeTwoClusters current n :: rs) := by
        cases rs with
        | nil => exact List.chain'_singleton _
        | cons r rs' =>
          have hnr : n.clipStart ≤ r.clipStart ∧ n.clipEnd ≤ r.clipEnd :=
            (List.chain'_cons.mp htail).1
          refine List.chain'_cons.mpr ⟨?_, (List.chain'_cons.mp htail).2⟩
          rw [hmergeStart, hmergeEnd]
          exact ⟨le_trans hrel.1 hnr.1, hnr.2⟩
      obtain ⟨h1, h2, h3⟩ := ih (mergeTwoClusters current n) hwf2 hchain2
      refine ⟨h1, ?_, h3⟩
      intro c hc
      have := h2 c hc
      rwa [hmergeStart] at this
    · rw [if_neg hcond]
      have hwf2 : ∀ c ∈ n :: rs, c.clipStart < c.clipEnd :=
        fun c hc => hwf c (List.mem_cons_of_mem current hc)
      obtain ⟨h1, h2, h3⟩ := ih n hwf2 htail
      refine ⟨?_, ?_, ?_⟩
      · intro c hc
        rcases List.mem_cons.mp hc with rfl | hc2
        · exact hwf _ (List.mem_cons_self _ (n :: rs))
        · exact h1 c hc2
      · intro c hc
        rcases List.mem_cons.mp hc with rfl | hc2
        · exact le_refl _
        · exact le_trans hrel.1 (h2 c hc2)
      · refine List.pairwise_cons.mpr ⟨?_, h3⟩
        intro c hc
        have hlb := h2 c hc
        have hlt := not_le.mp hcond
        linarith

/-- C6: on a start-ordered input of wellformed words with a positive
correction window and non-negative proximity threshold, every returned
cluster has `clipStart < clipEnd`, and the clip intervals of the output
are pairwise disjoint in order (earlier `clipEnd` at most later
`clipStart`). -/
theorem clusterLowConfidenceWords_windows_disjoint
    (opts : ClusteringOptions) (words : List WhisperWord)
    (hsorted : words.Pairwise (fun a b => a.start ≤ b.start))
    (hw : ∀ w ∈ words, 0 ≤ w.start ∧ w.start < w.«end»)
    (hW : 0 < opts.correctionWindow)
    (hp : 0 ≤ opts.proximityThreshold) :
    (∀ c ∈ clusterLowConfidenceWords opts words,
      c.clipStart < c.clipEnd) ∧
    (clusterLowConfidenceWords opts words).Pairwise
      (fun a b => a.clipEnd ≤ b.clipStart) := by
  cases words with
  | nil => exact ⟨fun c hc => absurd hc (List.not_mem_nil c), List.Pairwise.nil⟩
  | cons w0 ws0 =>
    have hwf := annotatedClustersOf_clip_lt opts (w0 :: ws0) hsorted hw hW
    have hchain := annotatedClustersOf_chain opts (w0 :: ws0) hsorted hw hp
    show (∀ c ∈ mergeOverlappingClusters (annotatedClustersOf opts (w0 :: ws0)),
        c.clipStart < c.clipEnd) ∧
      (mergeOverlappingClusters (annotatedClustersOf opts (w0 :: ws0))).Pairwise
        (fun a b => a.clipEnd ≤ b.clipStart)
    cases hA : annotatedClustersOf opts (w0 :: ws0) with
    | nil => exact ⟨fun c hc => absurd hc (List.not_mem_nil c), List.Pairwise.nil⟩
    | cons a as =>
      rw [hA] at hwf hchain
      cases as with
      | nil =>
        refine ⟨?_, List.pairwise_singleton _ _⟩
        intro c hc
        rw [mergeOverlappingClusters, List.mem_singleton] at hc
        exact hc ▸ hwf a (List.mem_cons_self a [])
      | cons b bs =>
        have hred : mergeOverlappingClusters (a :: b :: bs) =
            mergeLoop a (b :: bs) := rfl
        rw [hred]
        obtain ⟨h1, _, h3⟩ := mergeLoop_disjoint (b :: bs) a hwf hchain
        exact ⟨h1, h3⟩

/-- C6, witness: three ordered wellformed words with a single
low-confidence word give one proper, trivially disjoint window. -/
theorem clusterLowConfidenceWords_windows_disjoint_witness :
    (∀ c ∈ clusterLowConfidenceWords defaultClusteringOptions
        [⟨"Hello", 0, 1/2, 19/20⟩, ⟨"world", 1/2, 1, 9/20⟩,
         ⟨"test", 1, 3/2, 9/10⟩],
      c.clipStart < c.clipEnd) ∧
    (clusterLowConfidenceWords defaultClusteringOptions
        [⟨"Hello", 0, 1/2, 19/20⟩, ⟨"world", 1/2, 1, 9/20⟩,
         ⟨"test", 1, 3/2, 9/10⟩]).Pairwise
      (fun a b => a.clipEnd ≤ b.clipStart) :=
  clusterLowConfidenceWords_windows_disjoint defaultClusteringOptions
    [⟨"Hello", 0, 1/2, 19/20⟩, ⟨"world", 1/2, 1, 9/20⟩,
     ⟨"test", 1, 3/2, 9/10⟩]
    (by
      refine List.pairwise_cons.mpr ⟨?_, List.pairwise_cons.mpr ⟨?_, ?_⟩⟩
      · intro b hb
        fin_cases hb
        · with_unfolding_all decide
        · with_unfolding_all decide
      · intro b hb
        fin_cases hb
        with_unfolding_all decide
      · exact List.pairwise_singleton _ _)
    (by
      intro x hx
      fin_cases hx <;> constructor <;> with_unfolding_all decide)
    (by with_unfolding_all decide)
    (by with_unfolding_all decide)

/-- Equation of `trimRight` on a cons cell. -/
theorem trimRight_cons (c : Char) (l : List Char) :
    trimRight (c :: l) =
      match trimRight l with
      | [] => if isSpaceChar c then [] else [c]
      | d :: ds => c :: d :: ds := rfl

/-- Equation of `collapseWs` on two or more characters. -/
theorem collapseWs_cons2 (c c2 : Char) (cs : List Char) :
    collapseWs (c :: c2 :: cs) =
      if isSpaceChar c then
        if isSpaceChar c2 then collapseWs (c2 :: cs)
        else ' ' :: collapseWs (c2 :: cs)
      else c :: collapseWs (c2 :: cs) := rfl

/-- Right trim on a cons whose tail trims to nothing. -/
theorem trimRight_cons_nil (c : Char) (l : List Char)
    (h : trimRight l = []) :
    trimRight (c :: l) = if isSpaceChar c then [] else [c] := by
  rw [trimRight_cons, h]

/-- Right trim on a cons whose tail trims to a nonempty list. -/
theorem trimRight_cons_cons (c d : Char) (ds l : List Char)
    (h : trimRight l = d :: ds) :
    trimRight (c :: l) = c :: d :: ds := by
  rw [trimRight_cons, h]

/-- A non-space head passes through whitespace collapsing. -/
theorem collapseWs_cons_of_not_space (c : Char) (l : List Char)
    (hc : isSpaceChar c = false) :
    collapseWs (c :: l) = c :: collapseWs l := by
  cases l with
  | nil =>
    show (if isSpaceChar c = true then [' '] else [c]) = [c]
    rw [if_neg (by simp [hc])]
  | cons c2 cs => rw [collapseWs_cons2, if_neg (by simp [hc])]

/-- Whitespace collapsing never empties a nonempty list. -/
theorem collapseWs_ne_nil (l : List Char) (h : l ≠ []) :
    collapseWs l ≠ [] := by
  induction l with
  | nil => exact absurd rfl h
  | cons c cs ih =>
    cases cs with
    | nil =>
      show (if isSpaceChar c = true then [' '] else [c]) ≠ []
      by_cases hc : isSpaceChar c = true
      · rw [if_pos hc]; exact List.cons_ne_nil _ _
      · rw [if_neg hc]; exact List.cons_ne_nil _ _
    | cons c2 cs2 =>
      rw [collapseWs_cons2]
      by_cases hc : isSpaceChar c = true
      · rw [if_pos hc]
        by_cases hc2 : isSpaceChar c2 = true
        · rw [if_pos hc2]; exact ih (List.cons_ne_nil _ _)
        · rw [if_neg hc2]; exact List.cons_ne_nil _ _
      · rw [if_neg hc]; exact List.cons_ne_nil _ _

/-- Right trim of an all-whitespace list is empty. -/
theorem trimRight_all_space (l : List Char)
    (h : ∀ c ∈ l, isSpaceChar c = true) : trimRight l = [] := by
  induction l with
  | nil => rfl
  | cons c cs ih =>
    rw [trimRight_cons_nil c cs
        (ih (fun x hx => h x (List.mem_cons_of_mem c hx))),
      if_pos (h c (List.mem_cons_self c cs))]

/-- A non-space head survives the right trim. -/
theorem trimRight_cons_of_not_space (c : Char) (l : List Char)
    (hc : isSpaceChar c = false) :
    ∃ ts, trimRight (c :: l) = c :: ts := by
  cases h : trimRight l with
  | nil =>
    exact ⟨[], by rw [trimRight_cons_nil c l h, if_neg (by simp [hc])]⟩
  | cons d ds => exact ⟨d :: ds, trimRight_cons_cons c d ds l h⟩

/-- Appending trailing whitespace does not change the right trim. -/
theorem trimRight_append_space (sp : List Char)
    (hsp : ∀ c ∈ sp, isSpaceChar c = true) :
    ∀ z : List Char, trimRight (z ++ sp) = trimRight z := by
  intro z
  induction z with
  | nil => rw [List.nil_append]; exact trimRight_all_space sp hsp
  | cons c cs ih =>
    rw [List.cons_append, trimRight_cons, ih, trimRight_cons]

/-- Left drop and right trim of whitespace commute. -/
theorem trimRight_dropWhile_comm (l : List Char) :
    trimRight (l.dropWhile isSpaceChar) =
      (trimRight l).dropWhile isSpaceChar := by
  induction l with
  | nil => rfl
  | cons c cs ih =>
    by_cases hc : isSpaceChar c = true
    · rw [List.dropWhile_cons_of_pos hc, ih]
      cases h : trimRight cs with
      | nil =>
        rw [trimRight_cons_nil c cs h, if_pos hc]
      | cons d ds =>
        rw [trimRight_cons_cons c d ds cs h,
          List.dropWhile_cons_of_pos hc]
    · rw [List.dropWhile_cons_of_neg (by simp [hc])]
      cases h : trimRight cs with
      | nil =>
        rw [trimRight_cons_nil c cs h, if_neg (by simp [hc]),
          List.dropWhile_cons_of_neg (by simp [hc])]
      | cons d ds =>
        rw [trimRight_cons_cons c d ds cs h,
          List.dropWhile_cons_of_neg (by simp [hc])]

/-- Left whitespace drop and whitespace collapsing commute. -/
theorem dropWhile_collapseWs (l : List Char) :
    (collapseWs l).dropWhile isSpaceChar =
      collapseWs (l.dropWhile isSpaceChar) := by
  induction l with
  | nil => rfl
  | cons c cs ih =>
    cases cs with
    | nil =>
      by_cases hc : isSpaceChar c = true
      · show List.dropWhile isSpaceChar
            (if isSpaceChar c = true then [' '] else [c]) = _
        rw [if_pos hc, List.dropWhile_cons_of_pos hc]
        rfl
      · show List.dropWhile isSpaceChar
            (if isSpaceChar c = true then [' '] else [c]) = _
        rw [if_neg hc, List.dropWhile_cons_of_neg (by simp [hc])]
        exact ((collapseWs_cons_of_not_space c [] (by simpa using hc)).trans
          rfl).symm
    | cons c2 cs2 =>
      rw [collapseWs_cons2]
      by_cases hc : isSpaceChar c = true
      · rw [if_pos hc, List.dropWhile_cons_of_pos hc]
        by_cases hc2 : isSpaceChar c2 = true
        · rw [if_pos hc2]
          exact ih
        · rw [if_neg hc2, List.dropWhile_cons_of_pos (by decide : isSpaceChar ' ' = true),
            ih, List.dropWhile_cons_of_neg (by simp [hc2])]
      · rw [if_neg hc, List.dropWhile_cons_of_neg (by simp [hc]),
          List.dropWhile_cons_of_neg (by simp [hc]),
          collapseWs_cons_of_not_space c (c2 :: cs2) (by simpa using hc)]

/-- The right trim of a cons either vanishes or keeps the head. -/
theorem trimRight_cons_shape (c : Char) (l : List Char) :
    trimRight (c :: l) = [] ∨ ∃ ts, trimRight (c :: l) = c :: ts := by
  cases h : trimRight l with
  | nil =>
    by_cases hc : isSpaceChar c = true
    · exact Or.inl (by rw [trimRight_cons_nil c l h, if_pos hc])
    · exact Or.inr ⟨[], by rw [trimRight_cons_nil c l h, if_neg hc]⟩
  | cons d ds => exact Or.inr ⟨d :: ds, trimRight_cons_cons c d ds l h⟩

/-- Right whitespace trim and whitespace collapsing commute. -/
theorem trimRight_collapseWs (l : List Char) :
    trimRight (collapseWs l) = collapseWs (trimRight l) := by
  induction l with
  | nil => rfl
  | cons c cs ih =>
    cases cs with
    | nil =>
      by_cases hc : isSpaceChar c = true
      · show trimRight (if isSpaceChar c = true then [' '] else [c]) =
          collapseWs (trimRight [c])
        rw [if_pos hc, trimRight_cons_nil c [] rfl, if_pos hc,
          trimRight_cons_nil ' ' [] rfl]
        rfl
      · show trimRight (if isSpaceChar c = true then [' '] else [c]) =
          collapseWs (trimRight [c])
        rw [if_neg hc, trimRight_cons_nil c [] rfl, if_neg hc]
        exact ((collapseWs_cons_of_not_space c [] (by simpa using hc)).trans
          rfl).symm
    | cons c2 cs2 =>
      rw [collapseWs_cons2]
      by_cases hc : isSpaceChar c = true
      · by_cases hc2 : isSpaceChar c2 = true
        · rw [if_pos hc, if_pos hc2, ih]
          rcases trimRight_cons_shape c2 cs2 with hnil | ⟨ts, hts⟩
          · rw [hnil, trimRight_cons_nil c (c2 :: cs2) hnil, if_pos hc]
          · rw [hts, trimRight_cons_cons c c2 ts (c2 :: cs2) hts,
              collapseWs_cons2, if_pos hc, if_pos hc2]
        · rw [if_pos hc, if_neg hc2]
          obtain ⟨ts, hts⟩ :=
            trimRight_cons_of_not_space c2 cs2 (by simpa using hc2)
          have hx : trimRight (collapseWs (c2 :: cs2)) =
              c2 :: collapseWs ts := by
            rw [ih, hts, collapseWs_cons_of_not_space c2 ts
              (by simpa using hc2)]
          rw [trimRight_cons_cons ' ' c2 (collapseWs ts) _ hx,
            trimRight_cons_cons c c2 ts (c2 :: cs2) hts,
            collapseWs_cons2, if_pos hc, if_neg hc2,
            collapseWs_cons_of_not_space c2 ts (by simpa using hc2)]
      · rw [if_neg hc]
        cases h : trimRight (c2 :: cs2) with
        | nil =>
          have hx : trimRight (collapseWs (c2 :: cs2)) = [] := by
            rw [ih, h]
            rfl
          rw [trimRight_cons_nil c (collapseWs (c2 :: cs2)) hx, if_neg hc,
            trimRight_cons_nil c (c2 :: cs2) h, if_neg hc]
          exact ((collapseWs_cons_of_not_space c [] (by simpa using hc)).trans
            rfl).symm
        | cons d ds =>
          obtain ⟨e, es, hes⟩ := List.exists_cons_of_ne_nil
            (collapseWs_ne_nil (d :: ds) (List.cons_ne_nil d ds))
          have hx : trimRight (collapseWs (c2 :: cs2)) = e :: es := by
            rw [ih, h, hes]
          rw [trimRight_cons_cons c e es (collapseWs (c2 :: cs2)) hx,
            trimRight_cons_cons c d ds (c2 :: cs2) h,
            collapseWs_cons_of_not_space c (d :: ds) (by simpa using hc),
            hes]

/-- Full trim and whitespace collapsing commute. -/
theorem trimChars_collapseWs (l : List Char) :
    trimChars (collapseWs l) = collapseWs (trimChars l) := by
  rw [trimChars, dropWhile_collapseWs, trimRight_collapseWs, trimChars]

/-- The full trim can drop whitespace at the right end first. -/
theorem trimChars_eq_dropWhile_trimRight (l : List Char) :
    trimChars l = (trimRight l).dropWhile isSpaceChar := by
  rw [trimChars, trimRight_dropWhile_comm]

/-- Dropping a whitespace prefix before a list changes nothing. -/
theorem dropWhile_append_space (sp : List Char)
    (hsp : ∀ c ∈ sp, isSpaceChar c = true) (z : List Char) :
    (sp ++ z).dropWhile isSpaceChar = z.dropWhile isSpaceChar := by
  induction sp with
  | nil => rfl
  | cons c cs ih =>
    rw [List.cons_append,
      List.dropWhile_cons_of_pos (hsp c (List.mem_cons_self c cs)),
      ih (fun x hx => hsp x (List.mem_cons_of_mem c hx))]

/-- The full trim ignores an all-whitespace prefix. -/
theorem trimChars_append_left_space (sp : List Char)
    (hsp : ∀ c ∈ sp, isSpaceChar c = true) (z : List Char) :
    trimChars (sp ++ z) = trimChars z := by
  rw [trimChars, dropWhile_append_space sp hsp z, trimChars]

/-- The full trim ignores an all-whitespace suffix. -/
theorem trimChars_append_right_space (sp : List Char)
    (hsp : ∀ c ∈ sp, isSpaceChar c = true) (z : List Char) :
    trimChars (z ++ sp) = trimChars z := by
  rw [trimChars_eq_dropWhile_trimRight, trimRight_append_space sp hsp z,
    trimChars_eq_dropWhile_trimRight]

/-- Every list is its right trim followed by trailing whitespace. -/
theorem exists_trimRight_decomposition (y : List Char) :
    ∃ sp, (∀ c ∈ sp, isSpaceChar c = true) ∧ y = trimRight y ++ sp := by
  induction y with
  | nil => exact ⟨[], fun c hc => absurd hc (List.not_mem_nil c), rfl⟩
  | cons c cs ih =>
    obtain ⟨sp, hsp, hdecomp⟩ := ih
    cases h : trimRight cs with
    | nil =>
      have hcs : cs = sp := by
        rw [h, List.nil_append] at hdecomp
        exact hdecomp
      by_cases hc : isSpaceChar c = true
      · refine ⟨c :: sp, ?_, ?_⟩
        · intro x hx
          rcases List.mem_cons.mp hx with rfl | hx2
          · exact hc
          · exact hsp x hx2
        · rw [trimRight_cons_nil c cs h, if_pos hc, List.nil_append, hcs]
      · refine ⟨sp, hsp, ?_⟩
        rw [trimRight_cons_nil c cs h, if_neg hc, List.singleton_append,
          hcs]
    | cons d ds =>
      refine ⟨sp, hsp, ?_⟩
      rw [trimRight_cons_cons c d ds cs h]
      rw [h] at hdecomp
      rw [List.cons_append]
      exact congrArg (c :: ·) hdecomp

/-- Every list is its full trim surrounded by whitespace. -/
theorem exists_trimChars_decomposition (x : List Char) :
    ∃ sp1 sp2, (∀ c ∈ sp1, isSpaceChar c = true) ∧
      (∀ c ∈ sp2, isSpaceChar c = true) ∧
      x = sp1 ++ (trimChars x ++ sp2) := by
  obtain ⟨sp2, hsp2, hdec⟩ :=
    exists_trimRight_decomposition (x.dropWhile isSpaceChar)
  refine ⟨x.takeWhile isSpaceChar, sp2, ?_, hsp2, ?_⟩
  · intro c hc
    exact List.mem_takeWhile_imp hc
  · conv_lhs => rw [← List.takeWhile_append_dropWhile (p := isSpaceChar)
      (l := x)]
    rw [trimChars]
    exact congrArg (x.takeWhile isSpaceChar ++ ·) hdec

/-- Lowercasing keeps whitespace characters unchanged. -/
theorem toLower_of_space (c : Char) (h : isSpaceChar c = true) :
    c.toLower = c := by
  rw [isSpaceChar] at h
  simp only [Bool.or_eq_true, decide_eq_true_eq] at h
  rcases h with ((((rfl | rfl) | rfl) | rfl) | rfl) | rfl <;> decide

/-- The shared cleaning core distributes over append. -/
theorem cleanCore_append (a b : List Char) :
    cleanCore (a ++ b) = cleanCore a ++ cleanCore b := by
  rw [cleanCore, cleanCore, cleanCore, List.map_append, List.filter_append]

/-- The shared cleaning core keeps all-whitespace lists unchanged. -/
theorem cleanCore_space (sp : List Char)
    (hsp : ∀ c ∈ sp, isSpaceChar c = true) : cleanCore sp = sp := by
  induction sp with
  | nil => rfl
  | cons c cs ih =>
    have hc := hsp c (List.mem_cons_self c cs)
    rw [cleanCore, List.map_cons, toLower_of_space c hc,
      List.filter_cons_of_pos (by simp [hc]), ← cleanCore,
      ih (fun x hx => hsp x (List.mem_cons_of_mem c hx))]

/-- Trimming before the cleaning core changes nothing after a final
trim: the boundary whitespace the core preserves is trimmed away. -/
theorem trimChars_cleanCore_trimChars (x : List Char) :
    trimChars (cleanCore (trimChars x)) = trimChars (cleanCore x) := by
  obtain ⟨sp1, sp2, hsp1, hsp2, hx⟩ := exists_trimChars_decomposition x
  have h1 : trimChars (cleanCore x) =
      trimChars (sp1 ++ (cleanCore (trimChars x) ++ sp2)) := by
    conv_lhs => rw [hx]
    rw [cleanCore_append, cleanCore_append, cleanCore_space sp1 hsp1,
      cleanCore_space sp2 hsp2]
  rw [h1, trimChars_append_left_space sp1 hsp1,
    trimChars_append_right_space sp2 hsp2]

/-- C7, amended: `cleanText` applies trim first, not last, so its result
can keep boundary whitespace where punctuation was stripped next to
whitespace; trimming the result recovers exactly the reference
`clean(s) = lowercase, strip, collapse, trim` of the spec, and the result
differs from the reference output only by all-whitespace padding at the
two ends. -/
theorem cleanText_trim_eq_spec (s : String) :
    String.mk (trimChars (cleanText s).data) = cleanTextSpec s ∧
    ∃ sp1 sp2, (∀ c ∈ sp1, isSpaceChar c = true) ∧
      (∀ c ∈ sp2, isSpaceChar c = true) ∧
      (cleanText s).data = sp1 ++ ((cleanTextSpec s).data ++ sp2) := by
  have h1 : String.mk (trimChars (cleanText s).data) = cleanTextSpec s := by
    show String.mk (trimChars (collapseWs (cleanCore (trimChars s.data)))) =
      String.mk (trimChars (collapseWs (cleanCore s.data)))
    have h := congrArg collapseWs (trimChars_cleanCore_trimChars s.data)
    rw [trimChars_collapseWs, trimChars_collapseWs]
    exact congrArg String.mk h
  refine ⟨h1, ?_⟩
  obtain ⟨sp1, sp2, hsp1, hsp2, hx⟩ :=
    exists_trimChars_decomposition (cleanText s).data
  refine ⟨sp1, sp2, hsp1, hsp2, ?_⟩
  have h2 : trimChars (cleanText s).data = (cleanTextSpec s).data :=
    congrArg String.data h1
  rw [← h2]
  exact hx

/-- C7, counterexample: on the input "hi !" the cleaning function keeps a
trailing space (the bang is stripped after the trim), so it differs from
the reference clean, and its result does end in whitespace, against the
claim that it never has leading or trailing whitespace. -/
theorem cleanText_ne_spec_counterexample :
    cleanText "hi !" = "hi " ∧ cleanTextSpec "hi !" = "hi" ∧
    cleanText "hi !" ≠ cleanTextSpec "hi !" ∧
    (cleanText "hi !").data.getLast? = some ' ' := by
  refine ⟨?_, ?_, ?_, ?_⟩ <;> decide
